import Mathlib

/-!
# Verification of Subzero ARM32 lowering and ASan instrumentation

Shallow embedding of `src/IceASanInstrumentation.cpp` and
`src/IceTargetLoweringARM32.cpp` from the swiftshader Subzero code
generator, together with theorems settling the specification claims.
-/

set_option maxRecDepth 4000

namespace Subzero

/-! ## ASan instrumentation: data model (IceASanInstrumentation.cpp) -/

/-- `RzSize` constant: redzones are 32 bytes (IceASanInstrumentation.cpp:33). -/
def RzSize : Nat := 32

/-- Modelled from the spec: `Utils::OffsetToAlignment` (the spec's
`pad_to_alignment`) is not under `src/`; it returns the number of padding
bytes needed to raise `value` to a multiple of `align`. -/
def offsetToAlignment (value align : Nat) : Nat :=
  (align - value % align) % align

/-- Modelled from the spec: the width in bytes of `SizeT` as serialized by
`sizeToByteVec`; the spec states sizes are appended as "8 little-endian
bytes each" (the `SizeT` typedef is not under `src/`). -/
def sizeofSizeT : Nat := 8

/-- `sizeToByteVec` (IceASanInstrumentation.cpp:47-54): emit the bytes of
`size`, least significant first, one per byte of `SizeT`. -/
def sizeToByteVec (size : Nat) : List Nat :=
  (List.range sizeofSizeT).map (fun i => size / 256 ^ i % 256)

/-- The byte value `'R'` used to fill redzones with nonzero initializers. -/
def rByte : Nat := 82

/-- An input global variable, with the fields `instrumentGlobals` reads:
`getName`, `getAlignment`, `getNumBytes`, `hasNonzeroInitializer`,
`getIsConstant`. -/
structure GlobalVar where
  name : String
  align : Nat
  numBytes : Nat
  hasNonzeroInit : Bool
  isConstant : Bool
  deriving DecidableEq, Repr

/-- Initializer attached to a redzone global: a data initializer filled with
`len` copies of a byte, or a zero initializer of `len` bytes. -/
inductive GInit where
  | dataFill (len : Nat) (byte : Nat)
  | zeroFill (len : Nat)
  deriving DecidableEq, Repr

/-- A declaration in the instrumented global list: the `__$rz_array` global
(holding relocs to the named redzones, in order), the `__$rz_sizes` global
(holding the concatenated size byte vectors), a fresh redzone global, or one
of the original globals with its updated alignment. -/
inductive GDecl where
  | rzArray (entries : List String)
  | rzSizes (bytes : List Nat)
  | redzone (name : String) (size : Nat) (align : Nat) (isConstant : Bool)
      (init : GInit)
  | orig (g : GlobalVar) (newAlign : Nat)
  deriving DecidableEq, Repr

/-- `nextRzName` (IceASanInstrumentation.cpp:139-143): `"__$rz" + counter`. -/
def nextRzName (k : Nat) : String := "__$rz" ++ toString k

/-- Initializer chosen for a redzone of `size` bytes guarding a global with
`hasNonzeroInit` (IceASanInstrumentation.cpp:91-102). -/
def rzInit (hasNonzeroInit : Bool) (size : Nat) : GInit :=
  if hasNonzeroInit then .dataFill size rByte else .zeroFill size

/-- The per-global loop of `instrumentGlobals`
(IceASanInstrumentation.cpp:81-121), threading the `RzNum` counter `k`.
Returns the `__$rz_array` reloc entries, the `__$rz_sizes` bytes, and the
`RzLeft, Global, RzRight` triples, each accumulated in loop order. -/
def instrumentLoop (k : Nat) : List GlobalVar →
    List String × List Nat × List GDecl
  | [] => ([], [], [])
  | g :: rest =>
    let alignment := max RzSize g.align
    let rzLeftSize := alignment
    let rzRightSize := RzSize + offsetToAlignment g.numBytes alignment
    let leftName := nextRzName k
    let rightName := nextRzName (k + 1)
    let (arr, sizes, decls) := instrumentLoop (k + 2) rest
    (leftName :: rightName :: arr,
     sizeToByteVec rzLeftSize ++ sizeToByteVec rzRightSize ++ sizes,
     .redzone leftName rzLeftSize alignment g.isConstant
         (rzInit g.hasNonzeroInit rzLeftSize)
       :: .orig g alignment
       :: .redzone rightName rzRightSize 1 g.isConstant
         (rzInit g.hasNonzeroInit rzRightSize)
       :: decls)

/-- `instrumentGlobals` (IceASanInstrumentation.cpp:64-127): rebuilds the
global list as `__$rz_array`, `__$rz_sizes`, then `RzLeft, G, RzRight` for
every original global, starting the redzone-name counter at `k`. -/
def instrumentGlobals (k : Nat) (globals : List GlobalVar) : List GDecl :=
  let (arr, sizes, decls) := instrumentLoop k globals
  .rzArray arr :: .rzSizes sizes :: decls

/-! ## ASan instrumentation: function entry and return
(IceASanInstrumentation.cpp:147-237, 293-300) -/

/-- The size operand of an `alloca`: a `ConstantInteger32` or something
else (e.g. a variable). -/
inductive AllocaSizeOp where
  | const (n : Nat)
  | dynamic
  deriving DecidableEq, Repr

/-- An instruction at a function's entry as inspected by
`instrumentFuncStart`: an `InstAlloca` with its size operand, or any other
instruction. -/
inductive EntryInst where
  | alloca (sizeOp : AllocaSizeOp)
  | other
  deriving DecidableEq, Repr

/-- The leading run of constant-size allocas at the entry, i.e. the sizes
consumed by the `while` loop of `instrumentFuncStart`
(IceASanInstrumentation.cpp:163-205). -/
def constAllocaRun : List EntryInst → List Nat
  | .alloca (.const n) :: rest => n :: constAllocaRun rest
  | _ => []

/-- `RzPadding` for a constant alloca of `size` bytes
(IceASanInstrumentation.cpp:171). -/
def rzPadding (size : Nat) : Nat := RzSize + offsetToAlignment size RzSize

/-- Address of a redzone: `dest_idx + off` for the redzone appended to the
`idx`-th instrumented alloca, or the dedicated leftmost-redzone alloca. -/
inductive RzTarget where
  | localRz (idx : Nat) (off : Nat)
  | leftmost
  deriving DecidableEq, Repr

/-- An `__asan_poison` / `__asan_unpoison` call: its address argument and
its size argument. -/
structure AsanCall where
  target : RzTarget
  size : Nat
  deriving DecidableEq, Repr

/-- A replacement alloca: its byte count and alignment. -/
structure NewAlloca where
  byteCount : Nat
  alignment : Nat
  deriving DecidableEq, Repr

/-- The effect of `instrumentFuncStart`: replacement allocas (in order),
the leftmost-redzone alloca when locals exist, the `__asan_poison` calls
inserted at entry, and the pending `__asan_unpoison` calls appended to the
thread-local `LocalDtors` list (in append order). -/
structure FuncStartResult where
  newAllocas : List NewAlloca
  leftmostAlloca : Option NewAlloca
  poisons : List AsanCall
  dtors : List AsanCall
  deriving DecidableEq, Repr

/-- The `while` loop body of `instrumentFuncStart`
(IceASanInstrumentation.cpp:163-205): for the `idx`-th constant alloca of
size `s`, a new alloca of `s + rzPadding s` bytes at alignment 8, a poison
call `__asan_poison(dest + s, rzPadding s)` and an identical unpoison call
appended to `LocalDtors`. -/
def funcStartLoop (idx : Nat) :
    List Nat → List NewAlloca × List AsanCall × List AsanCall
  | [] => ([], [], [])
  | s :: rest =>
    let (as, ps, ds) := funcStartLoop (idx + 1) rest
    (⟨s + rzPadding s, 8⟩ :: as,
     ⟨.localRz idx s, rzPadding s⟩ :: ps,
     ⟨.localRz idx s, rzPadding s⟩ :: ds)

/-- `instrumentFuncStart` (IceASanInstrumentation.cpp:147-237): instrument
the leading run of constant-size allocas; when at least one was found
(`HasLocals`), also add the 32-byte leftmost redzone alloca, poison it at
entry, and append its unpoison call to `LocalDtors` last. -/
def instrumentFuncStart (insts : List EntryInst) : FuncStartResult :=
  let run := constAllocaRun insts
  let (as, ps, ds) := funcStartLoop 0 run
  let hasLocals := decide (run ≠ [])
  { newAllocas := as
    leftmostAlloca := if hasLocals then some ⟨RzSize, 8⟩ else none
    poisons := (if hasLocals then [⟨.leftmost, RzSize⟩] else []) ++ ps
    dtors := ds ++ (if hasLocals then [⟨.leftmost, RzSize⟩] else []) }

/-- `instrumentRet` (IceASanInstrumentation.cpp:293-300): before each
return instruction, insert every pending `__asan_unpoison` call of
`LocalDtors`, in order. -/
def instrumentRet (r : FuncStartResult) : List AsanCall := r.dtors

/-! ## ARM32 target lowering: types (IceTargetLoweringARM32.cpp) -/

/-- The Ice value types (`IceType_*`). -/
inductive IceTy where
  | void | i1 | i8 | i16 | i32 | i64 | f32 | f64
  | v4i1 | v8i1 | v16i1 | v16i8 | v8i16 | v4i32 | v4f32
  deriving DecidableEq, Repr

/-- `isVectorType`. -/
def isVectorType : IceTy → Bool
  | .v4i1 | .v8i1 | .v16i1 | .v16i8 | .v8i16 | .v4i32 | .v4f32 => true
  | _ => false

/-- `isFloatingType` (scalar floating point). -/
def isFloatingType : IceTy → Bool
  | .f32 | .f64 => true
  | _ => false

/-- `ARM32_MAX_GPR_ARG`: at most four GPR argument registers `r0..r3`. -/
def ARM32_MAX_GPR_ARG : Nat := 4

/-! ## `TargetARM32::lowerCall` (IceTargetLoweringARM32.cpp:1302-1394) -/

/-- The fields of an `InstCall` that `lowerCall` inspects: the number of
arguments, the destination (with its type; `none` when there is no dest),
the side-effects flag, and whether the call target is a
`ConstantRelocatable` (direct call). -/
structure CallInstr where
  numArgs : Nat
  destTy : Option IceTy
  hasSideEffects : Bool
  targetIsReloc : Bool
  deriving DecidableEq, Repr

/-- Instructions emitted by `lowerCall`, in emission order. -/
inductive CInst where
  | legalizeTarget
  | call
  | fakeDefHi
  | fakeKill
  | fakeUse
  | movDestLo
  | movDestHi
  | movDest
  deriving DecidableEq, Repr

/-- True when the destination type makes `lowerCall` take an
`UnimplementedError` path for the result register (f32/f64 or vector,
IceTargetLoweringARM32.cpp:1333-1347). -/
def callDestUnimpl : Option IceTy → Bool
  | some ty => isFloatingType ty || isVectorType ty
  | none => false

/-- True when `lowerCall` sets up an integer return register (`ReturnReg`,
IceTargetLoweringARM32.cpp:1323-1332). -/
def callHasReturnReg : Option IceTy → Bool
  | some .i1 | some .i8 | some .i16 | some .i32 | some .i64 => true
  | _ => false

/-- `TargetARM32::lowerCall` (IceTargetLoweringARM32.cpp:1302-1394),
parameterized by the `SkipUnimplemented` flag. `UnimplementedError`
(IceTargetLoweringARM32.cpp:35-42) aborts the process unless the flag is
set; abort is modelled as `Except.error`. On success the emitted
instruction list is returned: legalization of a non-relocatable call
target, the call itself, a fake-def of `r1` for i64 results, the
register-kill pseudo-instruction, a fake-use keeping a side-effecting
call's result alive, and the moves of the result into the dest. -/
def lowerCallInsts (c : CallInstr) : List CInst :=
  let returnReg := callHasReturnReg c.destTy
  let returnRegHi := c.destTy = some IceTy.i64
  (if c.targetIsReloc then [] else [CInst.legalizeTarget])
    ++ [CInst.call]
    ++ (if returnRegHi then [CInst.fakeDefHi] else [])
    ++ [CInst.fakeKill]
    ++ (if c.hasSideEffects && returnReg then [CInst.fakeUse] else [])
    ++ (if returnRegHi then [CInst.movDestLo, CInst.movDestHi]
        else if returnReg then [CInst.movDest] else [])

/-- The abort checks of `lowerCall` followed by the emission above. -/
def lowerCall (skipUnimpl : Bool) (c : CallInstr) : Except Unit (List CInst) :=
  if c.numArgs ≠ 0 && !skipUnimpl then .error ()
  else if callDestUnimpl c.destTy && !skipUnimpl then .error ()
  else .ok (lowerCallInsts c)

/-! ## `TargetARM32::lowerArguments` (IceTargetLoweringARM32.cpp:378-458) -/

/-- Where an argument ended up: left for the stack, in one GPR, or (for
i64) in a lo/hi pair of GPRs. Register `n` stands for `r_n`. -/
inductive ArgAssign where
  | stack
  | inReg (n : Nat)
  | inRegPair (lo hi : Nat)
  deriving DecidableEq, Repr

/-- The GPR indices assigned by a list of argument assignments, in
argument order (lo before hi for pairs). -/
def assignedRegs : List ArgAssign → List Nat
  | [] => []
  | .stack :: rest => assignedRegs rest
  | .inReg n :: rest => n :: assignedRegs rest
  | .inRegPair lo hi :: rest => lo :: hi :: assignedRegs rest

/-- The argument walk of `lowerArguments`
(IceTargetLoweringARM32.cpp:393-457), threading `NumGPRRegsUsed`.
Vector/float arguments hit `UnimplementedError` (abort unless
`skipUnimpl`) and consume no GPR. An i64 argument is aligned to an even
register index, speculatively consumes two registers, and is only assigned
when both fit; its lo half gets the lower-numbered register. -/
def lowerArgsFrom (skipUnimpl : Bool) (used : Nat) :
    List IceTy → Except Unit (List ArgAssign)
  | [] => .ok []
  | ty :: rest =>
    if isVectorType ty || isFloatingType ty then
      if !skipUnimpl then .error ()
      else (lowerArgsFrom skipUnimpl used rest).map (ArgAssign.stack :: ·)
    else if ty = .i64 then
      if used ≥ ARM32_MAX_GPR_ARG then
        (lowerArgsFrom skipUnimpl used rest).map (ArgAssign.stack :: ·)
      else
        let used1 := if used % 2 ≠ 0 then used + 1 else used
        let regLo := used1
        let regHi := used1 + 1
        let used2 := used1 + 2
        if used2 > ARM32_MAX_GPR_ARG then
          (lowerArgsFrom skipUnimpl used2 rest).map (ArgAssign.stack :: ·)
        else
          (lowerArgsFrom skipUnimpl used2 rest).map
            (ArgAssign.inRegPair regLo regHi :: ·)
    else
      if used ≥ ARM32_MAX_GPR_ARG then
        (lowerArgsFrom skipUnimpl used rest).map (ArgAssign.stack :: ·)
      else
        (lowerArgsFrom skipUnimpl (used + 1) rest).map
          (ArgAssign.inReg used :: ·)

/-- `TargetARM32::lowerArguments`: the walk starts with no GPR used. -/
def lowerArguments (skipUnimpl : Bool) (args : List IceTy) :
    Except Unit (List ArgAssign) :=
  lowerArgsFrom skipUnimpl 0 args

/-! ## `TargetARM32::finishArgumentLowering`
(IceTargetLoweringARM32.cpp:469-505) -/

/-- A stack-passed argument variable as `finishArgumentLowering` sees it:
either a plain variable of some type, or an i64 variable whose lo/hi i32
sub-variables are both set. -/
inductive FVar where
  | plain (ty : IceTy)
  | split64 (lo hi : IceTy)
  deriving DecidableEq, Repr

/-- Modelled from the spec: `typeWidthInBytesOnStack` is not under `src/`;
per the spec, "stack slots are at least 4 bytes", so the byte width is
rounded up to a multiple of 4. -/
def typeWidthInBytesOnStack : IceTy → Nat
  | .void => 0
  | .i1 | .i8 | .i16 | .i32 | .f32 => 4
  | .i64 | .f64 => 8
  | .v4i1 | .v8i1 | .v16i1 | .v16i8 | .v8i16 | .v4i32 | .v4f32 => 16

/-- Modelled from the spec: `applyStackAlignment` is not under `src/`; the
spec fixes the stack alignment at 16 bytes, so this rounds up to 16. -/
def applyStackAlignment (n : Nat) : Nat := n + offsetToAlignment n 16

/-- The non-recursive tail of `finishArgumentLowering`
(IceTargetLoweringARM32.cpp:482-486): assign
`basicFrameOffset + inArgsSizeBytes` as the stack offset (after aligning
for vector types) and bump `InArgsSizeBytes` by the stack width. -/
def finishArgScalar (basicFrameOffset : Nat) (ty : IceTy)
    (inArgsSizeBytes : Nat) : List Nat × Nat :=
  let sz := if isVectorType ty then applyStackAlignment inArgsSizeBytes
            else inArgsSizeBytes
  ([basicFrameOffset + sz], sz + typeWidthInBytesOnStack ty)

/-- `TargetARM32::finishArgumentLowering`
(IceTargetLoweringARM32.cpp:469-505): returns the frame offsets assigned,
in assignment order, together with the updated `InArgsSizeBytes`. An i64
variable with both sub-variables set recurses on lo first, then hi
(little-endian); the sub-variables are not themselves i64, so the
recursive calls take the scalar path. -/
def finishArgumentLowering (basicFrameOffset : Nat) :
    FVar → Nat → List Nat × Nat
  | .split64 lo hi, inArgsSizeBytes =>
    let (o1, sz1) := finishArgScalar basicFrameOffset lo inArgsSizeBytes
    let (o2, sz2) := finishArgScalar basicFrameOffset hi sz1
    (o1 ++ o2, sz2)
  | .plain ty, inArgsSizeBytes =>
    finishArgScalar basicFrameOffset ty inArgsSizeBytes

/-! ## Rotated immediates and `TargetARM32::legalize` of 32-bit constants
(IceTargetLoweringARM32.cpp:2039-2070) -/

/-- 32-bit rotate right by `r` places (`0 ≤ r ≤ 32`), on the value's low
32 bits: the low `r` bits wrap around to the top. -/
def ror32 (x r : Nat) : Nat :=
  x % 2 ^ 32 / 2 ^ r + x % 2 ^ 32 % 2 ^ r * 2 ^ (32 - r)

/-- 32-bit rotate left by `r` places (`0 ≤ r ≤ 32`). -/
def rotl32 (x r : Nat) : Nat := ror32 x (32 - r)

/-- Search the given even rotation amounts for one under which `v` rotates
left into an 8-bit value. -/
def findRot (v : Nat) : List Nat → Option (Nat × Nat)
  | [] => none
  | r :: rs =>
    if rotl32 v r < 256 then some (rotl32 v r, r) else findRot v rs

/-- The even rotation amounts `0, 2, ..., 30`. -/
def evenRots : List Nat := (List.range 16).map (2 * ·)

/-- Modelled from the spec: `OperandARM32FlexImm::canHoldImm` is not under
`src/`; per the spec, a value is a legal flexible immediate iff it is
`rotate_right(immed8, rotate_amt)` for some 8-bit `immed8` and even
`rotate_amt ∈ [0, 30]`, and the predicate returns such a pair. -/
def canHoldImm (v : Nat) : Option (Nat × Nat) := findRot v evenRots

/-- The operand returned by `legalize` for a 32-bit integer constant:
a rotated-immediate flexible operand, or a fresh register. -/
inductive LegOp where
  | flexImm (imm8 rot : Nat)
  | reg
  deriving DecidableEq, Repr

/-- Instructions emitted while legalizing a 32-bit integer constant. -/
inductive LegInst where
  | mvn (imm8 rot : Nat)
  | movw (val : Nat)
  | movt (val : Nat)
  deriving DecidableEq, Repr

/-- The `ConstantInteger32` arm of `TargetARM32::legalize`
(IceTargetLoweringARM32.cpp:2039-2070): try the value as a flexible
immediate, then its bitwise complement via `MVN`, and otherwise
materialize with `MOVW` (low 16 bits) plus `MOVT` exactly when the high
16 bits are nonzero. Returns the resulting operand and the emitted
instructions. -/
def legalizeConst32 (canBeFlex : Bool) (v : Nat) : LegOp × List LegInst :=
  let value := v % 2 ^ 32
  match canBeFlex, canHoldImm value with
  | true, some (imm8, rot) => (.flexImm imm8 rot, [])
  | _, _ =>
    match canBeFlex, canHoldImm (2 ^ 32 - 1 - value) with
    | true, some (imm8, rot) => (.reg, [.mvn imm8 rot])
    | _, _ =>
      let upperBits := value / 2 ^ 16 % 2 ^ 16
      (.reg,
       .movw (if upperBits ≠ 0 then value % 2 ^ 16 else value) ::
         (if upperBits ≠ 0 then [.movt upperBits] else []))

/-! ## `TargetARM32::lowerIcmp`, i64 case
(IceTargetLoweringARM32.cpp:1560-1634) -/

/-- ARM32 condition codes (the subset relevant to icmp lowering; `AL` is
the always-executed default predicate). -/
inductive Cond where
  | EQ | NE | HI | HS | LO | LS | GT | GE | LT | LE | AL
  deriving DecidableEq, Repr

/-- One row of `TableIcmp64` (IceTargetLoweringARM32.cpp:63-74): whether
the comparison is signed, whether the operands must be swapped, and the
two conditional-move predicates. -/
structure TableIcmp64Entry where
  isSigned : Bool
  swapped : Bool
  c1 : Cond
  c2 : Cond
  deriving DecidableEq, Repr

/-- Instructions emitted by the i64 icmp lowering. Operands are register
ids of the legalized lo/hi halves. -/
inductive IcmpInst where
  | cmp (lhs rhs : Nat) (pred : Cond)
  | sbcsScratch (lhs rhs : Nat)
  | fakeUseScratch
  | movTImm (v : Nat) (pred : Cond)
  | movTNonkillableImm (v : Nat) (pred : Cond)
  | movDestFromT
  deriving DecidableEq, Repr

/-- The lowering context's instruction stream: `emit` models
`Context.insert` / the `_cmp`, `_sbcs`, `_mov` helpers, which append one
instruction at the insertion point. -/
def emit (insts : List IcmpInst) (i : IcmpInst) : List IcmpInst :=
  insts ++ [i]

/-- The i64 arm of `TargetARM32::lowerIcmp`
(IceTargetLoweringARM32.cpp:1601-1634), statement by statement, for the
table row `e` (the rows of `TableIcmp64` live in
IceTargetLoweringARM32.def, which is not under `src/`, so the row is a
parameter here) and the lo/hi halves of the two source operands (already
legal register ids). If the row says `Swapped`, the sources trade places
during legalization; signed rows emit `_cmp(Src0Lo, Src1LoRF)` then
`_sbcs(ScratchReg, Src0Hi, Src1HiRF)` plus a fake use of the scratch
register; unsigned rows emit `_cmp(Src0Hi, Src1HiRF)` then
`_cmp(Src0Lo, Src1LoRF, CondARM32::EQ)`; finally
`_mov(T, 1, C1)`, `_mov_nonkillable(T, 0, C2)`, `_mov(Dest, T)`. -/
def lowerIcmp64 (e : TableIcmp64Entry) (src0lo src0hi src1lo src1hi : Nat) :
    List IcmpInst :=
  let s0lo := if e.swapped then src1lo else src0lo
  let s0hi := if e.swapped then src1hi else src0hi
  let s1lo := if e.swapped then src0lo else src1lo
  let s1hi := if e.swapped then src0hi else src1hi
  let ctx : List IcmpInst := []
  let ctx :=
    if e.isSigned then
      emit (emit (emit ctx (.cmp s0lo s1lo .AL)) (.sbcsScratch s0hi s1hi))
        .fakeUseScratch
    else
      emit (emit ctx (.cmp s0hi s1hi .AL)) (.cmp s0lo s1lo .EQ)
  emit (emit (emit ctx (.movTImm 1 e.c1)) (.movTNonkillableImm 0 e.c2))
    .movDestFromT

/-! ## `TargetARM32::addEpilog` (IceTargetLoweringARM32.cpp:719-798) -/

/-- A node instruction as `addEpilog` searches for it: the target return
instruction or anything else. -/
inductive NodeInst where
  | ret
  | other
  deriving DecidableEq, Repr

/-- Instructions the epilog inserts before the located return. -/
inductive EpInst where
  | fakeUseSP
  | movSPfromFP
  | addSP (amount : Nat)
  | pop (regs : List Nat)
  | legalizeEmit (i : LegInst)
  | bundleLock
  | bicLR (mask : LegOp)
  | retLR
  | bundleUnlock
  deriving DecidableEq, Repr

/-- The function state `addEpilog` reads: the sandboxing flag, whether a
frame pointer is used, the spill-area size, and the callee-save registers
to restore. -/
structure EpilogState where
  useSandboxing : Bool
  usesFramePointer : Bool
  spillAreaSizeBytes : Nat
  gprsToRestore : List Nat
  deriving DecidableEq, Repr

/-- The sandboxed return sequence (IceTargetLoweringARM32.cpp:777-797):
legalize the mask `0xc000000f` to a register-or-flex operand, then emit
`bundle_lock; BIC lr, lr, mask; BX lr; bundle_unlock`. -/
def sandboxRetSeq : List EpInst :=
  let (mask, extra) := legalizeConst32 true 0xc000000f
  extra.map .legalizeEmit
    ++ [.bundleLock, .bicLR mask, .retLR, .bundleUnlock]

/-- The instructions `TargetARM32::addEpilog` inserts before the return
(IceTargetLoweringARM32.cpp:736-796): restore SP (via FP, or by re-adding
the spill area), pop the preserved registers, and, when sandboxing is
enabled, the sandboxed return sequence. -/
def epilogInsts (st : EpilogState) : List EpInst :=
  (if st.usesFramePointer then [.fakeUseSP, .movSPfromFP]
   else if st.spillAreaSizeBytes ≠ 0 then [.addSP st.spillAreaSizeBytes]
   else [])
  ++ (if st.gprsToRestore ≠ [] then [.pop st.gprsToRestore] else [])
  ++ (if st.useSandboxing then sandboxRetSeq else [])

/-- `TargetARM32::addEpilog` (IceTargetLoweringARM32.cpp:719-798): search
the node for a return instruction; when none exists nothing happens
(`none`). Otherwise return the inserted instructions together with whether
the original return was marked deleted — which happens exactly on the
sandboxing path (IceTargetLoweringARM32.cpp:777-797). -/
def addEpilog (st : EpilogState) (insts : List NodeInst) :
    Option (List EpInst × Bool) :=
  if insts.contains .ret then some (epilogInsts st, st.useSandboxing)
  else none

/-! ## Helper lemmas: ASan globals -/

theorem instrumentLoop_decls (gs : List GlobalVar) :
    ∀ (k i : Nat) (hi : i < gs.length),
    ((instrumentLoop k gs).2.2.get? (3 * i) =
      some (.redzone (nextRzName (k + 2 * i))
        (max RzSize (gs.get ⟨i, hi⟩).align) (max RzSize (gs.get ⟨i, hi⟩).align)
        (gs.get ⟨i, hi⟩).isConstant
        (rzInit (gs.get ⟨i, hi⟩).hasNonzeroInit
          (max RzSize (gs.get ⟨i, hi⟩).align)))) ∧
    ((instrumentLoop k gs).2.2.get? (3 * i + 1) =
      some (.orig (gs.get ⟨i, hi⟩) (max RzSize (gs.get ⟨i, hi⟩).align))) ∧
    ((instrumentLoop k gs).2.2.get? (3 * i + 2) =
      some (.redzone (nextRzName (k + 2 * i + 1))
        (RzSize + offsetToAlignment (gs.get ⟨i, hi⟩).numBytes
          (max RzSize (gs.get ⟨i, hi⟩).align)) 1
        (gs.get ⟨i, hi⟩).isConstant
        (rzInit (gs.get ⟨i, hi⟩).hasNonzeroInit
          (RzSize + offsetToAlignment (gs.get ⟨i, hi⟩).numBytes
            (max RzSize (gs.get ⟨i, hi⟩).align))))) := by
  induction gs with
  | nil => intro k i hi; exact absurd hi (by simp)
  | cons g rest ih =>
    intro k i hi
    cases i with
    | zero => simp [instrumentLoop]
    | succ j =>
      have hj : j < rest.length := by simpa using hi
      have h3 : 3 * (j + 1) = 3 * j + 1 + 1 + 1 := by omega
      have hk : k + 2 * (j + 1) = k + 2 + 2 * j := by omega
      have := ih (k + 2) j hj
      simp only [instrumentLoop, h3, hk, List.get?_cons_succ, List.get_cons_succ]
      exact this

theorem instrumentLoop_sizes (k : Nat) (gs : List GlobalVar) :
    (instrumentLoop k gs).2.1 =
      gs.flatMap fun g =>
        sizeToByteVec (max RzSize g.align) ++
        sizeToByteVec (RzSize + offsetToAlignment g.numBytes
          (max RzSize g.align)) := by
  induction gs generalizing k with
  | nil => simp [instrumentLoop]
  | cons g rest ih => simp [instrumentLoop, ih, List.append_assoc]

/-! ## Helper lemmas: ASan function entry -/

theorem funcStartLoop_lengths (run : List Nat) : ∀ idx : Nat,
    (funcStartLoop idx run).1.length = run.length ∧
    (funcStartLoop idx run).2.1.length = run.length ∧
    (funcStartLoop idx run).2.2.length = run.length := by
  induction run with
  | nil => intro idx; simp [funcStartLoop]
  | cons s rest ih =>
    intro idx
    have := ih (idx + 1)
    simp [funcStartLoop, this]

theorem funcStartLoop_get (run : List Nat) :
    ∀ (idx i : Nat) (hi : i < run.length),
    ((funcStartLoop idx run).1.get? i =
      some ⟨run.get ⟨i, hi⟩ + rzPadding (run.get ⟨i, hi⟩), 8⟩) ∧
    ((funcStartLoop idx run).2.1.get? i =
      some ⟨.localRz (idx + i) (run.get ⟨i, hi⟩),
        rzPadding (run.get ⟨i, hi⟩)⟩) ∧
    ((funcStartLoop idx run).2.2.get? i =
      some ⟨.localRz (idx + i) (run.get ⟨i, hi⟩),
        rzPadding (run.get ⟨i, hi⟩)⟩) := by
  induction run with
  | nil => intro idx i hi; exact absurd hi (by simp)
  | cons s rest ih =>
    intro idx i hi
    cases i with
    | zero => simp [funcStartLoop]
    | succ j =>
      have hj : j < rest.length := by simpa using hi
      have hidx : idx + (j + 1) = idx + 1 + j := by omega
      have := ih (idx + 1) j hj
      simp only [funcStartLoop, hidx, List.get?_cons_succ, List.get_cons_succ]
      exact this

/-! ## Claim C1 -/

/-- C1: after `instrument_globals`, the new list starts with `__$rz_array`
and `__$rz_sizes`; for the `i`-th original global `G` of size `n` and
alignment `a`, the triple `RzL, G, RzR` appears consecutively at position
`3*i + 2`, where `RzL` has size and alignment `max(32, a)`, `G`'s new
alignment is `max(32, a)`, `RzR` has size `32 + pad_to_alignment(n,
max(32, a))` and alignment 1, and both redzones are filled with `'R'`
bytes when `G` has a nonzero initializer and zero-initialized
otherwise. -/
theorem c1_instrument_globals_redzones (gs : List GlobalVar) (i : Nat)
    (hi : i < gs.length) :
    (∃ entries bytes,
      (instrumentGlobals 0 gs).get? 0 = some (.rzArray entries) ∧
      (instrumentGlobals 0 gs).get? 1 = some (.rzSizes bytes)) ∧
    ((instrumentGlobals 0 gs).get? (3 * i + 2) =
      some (.redzone (nextRzName (2 * i))
        (max 32 (gs.get ⟨i, hi⟩).align) (max 32 (gs.get ⟨i, hi⟩).align)
        (gs.get ⟨i, hi⟩).isConstant
        (if (gs.get ⟨i, hi⟩).hasNonzeroInit then
          GInit.dataFill (max 32 (gs.get ⟨i, hi⟩).align) rByte
         else GInit.zeroFill (max 32 (gs.get ⟨i, hi⟩).align)))) ∧
    ((instrumentGlobals 0 gs).get? (3 * i + 3) =
      some (.orig (gs.get ⟨i, hi⟩) (max 32 (gs.get ⟨i, hi⟩).align))) ∧
    ((instrumentGlobals 0 gs).get? (3 * i + 4) =
      some (.redzone (nextRzName (2 * i + 1))
        (32 + offsetToAlignment (gs.get ⟨i, hi⟩).numBytes
          (max 32 (gs.get ⟨i, hi⟩).align)) 1
        (gs.get ⟨i, hi⟩).isConstant
        (if (gs.get ⟨i, hi⟩).hasNonzeroInit then
          GInit.dataFill (32 + offsetToAlignment (gs.get ⟨i, hi⟩).numBytes
            (max 32 (gs.get ⟨i, hi⟩).align)) rByte
         else GInit.zeroFill (32 + offsetToAlignment (gs.get ⟨i, hi⟩).numBytes
            (max 32 (gs.get ⟨i, hi⟩).align))))) := by
  have h := instrumentLoop_decls gs 0 i hi
  have e2 : 3 * i + 2 = (3 * i) + 1 + 1 := by omega
  have e3 : 3 * i + 3 = (3 * i + 1) + 1 + 1 := by omega
  have e4 : 3 * i + 4 = (3 * i + 2) + 1 + 1 := by omega
  refine ⟨⟨(instrumentLoop 0 gs).1, (instrumentLoop 0 gs).2.1, ?_, ?_⟩,
    ?_, ?_, ?_⟩
  · simp [instrumentGlobals]
  · simp [instrumentGlobals]
  · rw [e2]
    simpa [instrumentGlobals, RzSize, rzInit] using h.1
  · rw [e3]
    simpa [instrumentGlobals, RzSize, rzInit] using h.2.1
  · rw [e4]
    simpa [instrumentGlobals, RzSize, rzInit] using h.2.2

/-- Witness for C1 at the concrete global of scenario S3 (size 10,
alignment 1, zero initializer). -/
theorem c1_witness :
    (∃ entries bytes,
      (instrumentGlobals 0 [⟨"g", 1, 10, false, false⟩]).get? 0 =
        some (.rzArray entries) ∧
      (instrumentGlobals 0 [⟨"g", 1, 10, false, false⟩]).get? 1 =
        some (.rzSizes bytes)) ∧
    ((instrumentGlobals 0 [⟨"g", 1, 10, false, false⟩]).get? 2 =
      some (.redzone (nextRzName 0) 32 32 false (GInit.zeroFill 32))) ∧
    ((instrumentGlobals 0 [⟨"g", 1, 10, false, false⟩]).get? 3 =
      some (.orig ⟨"g", 1, 10, false, false⟩ 32)) ∧
    ((instrumentGlobals 0 [⟨"g", 1, 10, false, false⟩]).get? 4 =
      some (.redzone (nextRzName 1) 54 1 false (GInit.zeroFill 54))) := by
  have h := c1_instrument_globals_redzones [⟨"g", 1, 10, false, false⟩] 0
    (by decide)
  revert h
  norm_num [offsetToAlignment]

/-! ## Claim C7 -/

/-- C7: every redzone created by `instrument_globals` has its size appended
to `__$rz_sizes` as exactly 8 little-endian bytes: `sizeToByteVec`
produces 8 bytes, its `j`-th byte is byte `j` of the size, the
`__$rz_sizes` payload is the concatenation of the left/right redzone size
encodings over all globals, and in scenario S3 the two appended entries
are the 8-byte little-endian encodings of 32 and 54. -/
theorem c7_rz_sizes_little_endian :
    (∀ s : Nat, (sizeToByteVec s).length = 8 ∧
      ∀ j : Nat, j < 8 → (sizeToByteVec s).get? j = some (s / 256 ^ j % 256)) ∧
    (∀ (k : Nat) (gs : List GlobalVar),
      (instrumentLoop k gs).2.1 =
        gs.flatMap fun g =>
          sizeToByteVec (max 32 g.align) ++
          sizeToByteVec (32 + offsetToAlignment g.numBytes
            (max 32 g.align))) ∧
    ((instrumentGlobals 0 [⟨"g", 1, 10, false, false⟩]).get? 1 =
      some (.rzSizes (sizeToByteVec 32 ++ sizeToByteVec 54))) ∧
    sizeToByteVec 32 = [32, 0, 0, 0, 0, 0, 0, 0] ∧
    sizeToByteVec 54 = [54, 0, 0, 0, 0, 0, 0, 0] := by
  refine ⟨fun s => ⟨by simp [sizeToByteVec, sizeofSizeT], fun j hj => ?_⟩,
    fun k gs => ?_, by decide, by decide, by decide⟩
  · simp [sizeToByteVec, sizeofSizeT, List.getElem?_map,
      List.getElem?_range hj]
  · simpa [RzSize] using instrumentLoop_sizes k gs

/-- Witness for C7: the little-endian byte property evaluated at size 54,
byte 1. -/
theorem c7_witness : (sizeToByteVec 54).length = 8 ∧
    (sizeToByteVec 54).get? 1 = some (54 / 256 ^ 1 % 256) :=
  ⟨(c7_rz_sizes_little_endian.1 54).1,
   (c7_rz_sizes_little_endian.1 54).2 1 (by decide)⟩

/-! ## Claim C8 -/

/-- C8: the `i`-th alloca of constant size `S` in the entry run is replaced
by an alloca of `S + 32 + pad_to_alignment(S, 32)` bytes at 8-byte
alignment; a poison call `__asan_poison(dest + S, 32 + pad_to_alignment(S,
32))` is inserted at entry (after the leftmost-redzone poison), and a
matching `__asan_unpoison` is appended to the per-thread destructor
list. -/
theorem c8_alloca_redzones (insts : List EntryInst) (i : Nat)
    (hi : i < (constAllocaRun insts).length) :
    ((instrumentFuncStart insts).newAllocas.get? i =
      some ⟨(constAllocaRun insts).get ⟨i, hi⟩ +
        (32 + offsetToAlignment ((constAllocaRun insts).get ⟨i, hi⟩) 32),
        8⟩) ∧
    ((instrumentFuncStart insts).poisons.get? (i + 1) =
      some ⟨.localRz i ((constAllocaRun insts).get ⟨i, hi⟩),
        32 + offsetToAlignment ((constAllocaRun insts).get ⟨i, hi⟩) 32⟩) ∧
    ((instrumentFuncStart insts).dtors.get? i =
      some ⟨.localRz i ((constAllocaRun insts).get ⟨i, hi⟩),
        32 + offsetToAlignment ((constAllocaRun insts).get ⟨i, hi⟩) 32⟩) := by
  have h := funcStartLoop_get (constAllocaRun insts) 0 i hi
  have hne : constAllocaRun insts ≠ [] := by
    intro he; rw [he] at hi; exact absurd hi (by simp)
  have hlen := funcStartLoop_lengths (constAllocaRun insts) 0
  have hilt : i < (funcStartLoop 0 (constAllocaRun insts)).2.2.length := by
    rw [hlen.2.2]; exact hi
  refine ⟨?_, ?_, ?_⟩
  · simpa [instrumentFuncStart, rzPadding, RzSize] using h.1
  · simpa [instrumentFuncStart, hne, rzPadding, RzSize] using h.2.1
  · rw [show (instrumentFuncStart insts).dtors =
      (funcStartLoop 0 (constAllocaRun insts)).2.2 ++
        (if decide (constAllocaRun insts ≠ []) then
          [⟨.leftmost, RzSize⟩] else []) from rfl,
      List.get?_eq_getElem?, List.getElem?_append_left hilt,
      ← List.get?_eq_getElem?]
    simpa [rzPadding, RzSize] using h.2.2

/-- Witness for C8 at scenario S4: a single alloca of constant size 40
becomes a 96-byte alloca at alignment 8 with `__asan_poison(dest + 40,
56)` and a matching pending `__asan_unpoison`. -/
theorem c8_witness :
    ((instrumentFuncStart [.alloca (.const 40)]).newAllocas.get? 0 =
      some ⟨96, 8⟩) ∧
    ((instrumentFuncStart [.alloca (.const 40)]).poisons.get? 1 =
      some ⟨.localRz 0 40, 56⟩) ∧
    ((instrumentFuncStart [.alloca (.const 40)]).dtors.get? 0 =
      some ⟨.localRz 0 40, 56⟩) := by
  have h := c8_alloca_redzones [.alloca (.const 40)] 0 (by decide)
  revert h
  norm_num [offsetToAlignment, constAllocaRun]

/-! ## Claim C9 (corrected) -/

/-- C9 counterexample: for a function whose entry holds no constant-size
alloca, no leftmost redzone is created and no `__asan_unpoison` call is
inserted before the return, while the claim demands `0 + 1 = 1`. -/
theorem c9_counterexample :
    (instrumentRet (instrumentFuncStart [EntryInst.other])).length ≠
      (constAllocaRun [EntryInst.other]).length + 1 := by
  decide

/-- C9 (amended): the number of `__asan_unpoison` calls inserted before a
return equals the number of constant-size allocas instrumented at entry
plus one for the leftmost redzone when at least one alloca was
instrumented, and zero when none was. -/
theorem c9_unpoison_count (insts : List EntryInst) :
    (instrumentRet (instrumentFuncStart insts)).length =
      if constAllocaRun insts = [] then 0
      else (constAllocaRun insts).length + 1 := by
  have hlen := (funcStartLoop_lengths (constAllocaRun insts) 0).2.2
  by_cases hne : constAllocaRun insts = []
  · simp [instrumentRet, instrumentFuncStart, hne, hlen, funcStartLoop]
  · simp [instrumentRet, instrumentFuncStart, hne, hlen]

/-! ## Claim C10 -/

/-- C10: `lowerCall` hits the unimplemented-argument path for every call
with at least one argument: without the skip-unimplemented flag the
process aborts; with it the call lowers to exactly the instructions of the
corresponding zero-argument call, i.e. no argument-passing instructions
are emitted. Zero-argument calls with an integer-or-void destination lower
without hitting any unimplemented path, whatever the flag. -/
theorem c10_lower_call_args_unimplemented (skip : Bool) (c : CallInstr) :
    (c.numArgs ≠ 0 → skip = false → lowerCall skip c = .error ()) ∧
    (skip = true → lowerCall skip c = lowerCall skip { c with numArgs := 0 }) ∧
    (c.numArgs = 0 → callDestUnimpl c.destTy = false →
      ∃ l, lowerCall skip c = .ok l) := by
  refine ⟨fun hn hs => ?_, fun hs => ?_, fun hn hd => ?_⟩
  · subst hs
    simp [lowerCall, hn]
  · subst hs
    simp [lowerCall, lowerCallInsts]
  · simp [lowerCall, hn, hd]

/-- Witness for C10: a two-argument i32 call aborts without the flag, and
with the flag lowers exactly as its zero-argument counterpart. -/
theorem c10_witness :
    lowerCall false ⟨2, some .i32, true, true⟩ = .error () ∧
    lowerCall true ⟨2, some .i32, true, true⟩ =
      lowerCall true ⟨0, some .i32, true, true⟩ :=
  ⟨(c10_lower_call_args_unimplemented false ⟨2, some .i32, true, true⟩).1
      (by decide) rfl,
   (c10_lower_call_args_unimplemented true ⟨2, some .i32, true, true⟩).2.1 rfl⟩

/-! ## Claim C2 (corrected) -/

/-- C2 counterexample: a successfully lowered zero-argument call returning
i64 places a fake-def of the hi result register, not the register-kill
pseudo-instruction, at the position immediately following the call. -/
theorem c2_counterexample :
    lowerCall true ⟨0, some .i64, false, true⟩ =
      .ok [.call, .fakeDefHi, .fakeKill, .movDestLo, .movDestHi] ∧
    ([CInst.call, .fakeDefHi, .fakeKill, .movDestLo,
        .movDestHi].get? 1 ≠ some CInst.fakeKill) :=
  ⟨rfl, by decide⟩

/-- C2 (amended): in every successfully lowered call, the register-kill
pseudo-instruction follows the call — immediately when the result type is
not i64, and two positions later (after the fake-def of the hi result
register) for i64-returning calls. -/
theorem c2_register_kill_after_call (skip : Bool) (c : CallInstr)
    (l : List CInst) (h : lowerCall skip c = .ok l) :
    ∃ i, l.get? i = some .call ∧
      (if c.destTy = some IceTy.i64 then
        l.get? (i + 1) = some .fakeDefHi ∧ l.get? (i + 2) = some .fakeKill
       else l.get? (i + 1) = some .fakeKill) := by
  have hl : l = lowerCallInsts c := by
    unfold lowerCall at h
    split at h
    · exact absurd h (by simp)
    · split at h
      · exact absurd h (by simp)
      · exact (Except.ok.inj h).symm
  subst hl
  refine ⟨if c.targetIsReloc then 0 else 1, ?_, ?_⟩
  · by_cases hr : c.targetIsReloc <;> simp [lowerCallInsts, hr]
  · by_cases hr : c.targetIsReloc <;>
      by_cases hi64 : c.destTy = some IceTy.i64 <;>
      simp [lowerCallInsts, hr, hi64]

/-- Witness for C2 at an i64-returning direct call with no arguments. -/
theorem c2_witness :
    ∃ i, ([CInst.call, .fakeDefHi, .fakeKill, .movDestLo,
        .movDestHi].get? i = some .call ∧
      (if (some IceTy.i64) = some IceTy.i64 then
        ([CInst.call, .fakeDefHi, .fakeKill, .movDestLo,
            .movDestHi].get? (i + 1) = some .fakeDefHi ∧
         [CInst.call, .fakeDefHi, .fakeKill, .movDestLo,
            .movDestHi].get? (i + 2) = some .fakeKill)
       else [CInst.call, .fakeDefHi, .fakeKill, .movDestLo,
          .movDestHi].get? (i + 1) = some .fakeKill)) :=
  c2_register_kill_after_call true ⟨0, some .i64, false, true⟩ _ rfl

/-! ## Claim C4 -/

/-- C4: for i64 icmp, after swapping the operands when the table row says
so, the signed case emits a CMP of the lo halves followed by an SBCS of
the hi halves into a scratch register (plus its fake use), the unsigned
case emits a CMP of the hi halves followed by a CMP of the lo halves
predicated EQ; in both cases the temporary is then set to 1 under `C1`,
set to 0 under `C2` by a non-killing conditional move, and moved into the
destination. -/
theorem c4_lower_icmp64_shape (e : TableIcmp64Entry)
    (s0lo s0hi s1lo s1hi : Nat) :
    lowerIcmp64 e s0lo s0hi s1lo s1hi =
      (if e.isSigned then
        [.cmp (if e.swapped then s1lo else s0lo)
           (if e.swapped then s0lo else s1lo) .AL,
         .sbcsScratch (if e.swapped then s1hi else s0hi)
           (if e.swapped then s0hi else s1hi),
         .fakeUseScratch]
       else
        [.cmp (if e.swapped then s1hi else s0hi)
           (if e.swapped then s0hi else s1hi) .AL,
         .cmp (if e.swapped then s1lo else s0lo)
           (if e.swapped then s0lo else s1lo) .EQ])
      ++ [.movTImm 1 e.c1, .movTNonkillableImm 0 e.c2, .movDestFromT] := by
  by_cases hs : e.isSigned <;> simp [lowerIcmp64, emit, hs]

/-! ## Claim C6 -/

/-- C6: with sandboxing enabled, the epilog of any function containing a
return inserts, as its final instructions, exactly
`bundle_lock; BIC lr, lr, #0xC000000F; BX lr; bundle_unlock` — the BIC
mask is the flexible immediate `(63, rotate 2)`, which decodes to
`0xC000000F`, and constant legalization emits no extra instruction — and
the original return is marked deleted; everything before the sequence is
only SP restoration and register pops. -/
theorem c6_sandboxed_return (st : EpilogState) (insts : List NodeInst)
    (hs : st.useSandboxing = true) (hr : insts.contains .ret = true) :
    ∃ pre, addEpilog st insts =
        some (pre ++ [.bundleLock, .bicLR (.flexImm 63 2), .retLR,
          .bundleUnlock], true) ∧
      ror32 63 2 = 0xc000000f ∧
      ∀ e ∈ pre, e = .fakeUseSP ∨ e = .movSPfromFP ∨
        (∃ n, e = .addSP n) ∨ ∃ rs, e = .pop rs := by
  have hseq : sandboxRetSeq =
      [.bundleLock, .bicLR (.flexImm 63 2), .retLR, .bundleUnlock] := by
    decide
  refine ⟨(if st.usesFramePointer then [.fakeUseSP, .movSPfromFP]
      else if st.spillAreaSizeBytes ≠ 0 then [.addSP st.spillAreaSizeBytes]
      else [])
    ++ (if st.gprsToRestore ≠ [] then [.pop st.gprsToRestore] else []),
    ?_, by decide, ?_⟩
  · simp [addEpilog, hr, hs, epilogInsts, hseq]
    simpa using hr
  · intro e he
    simp only [List.mem_append] at he
    rcases he with he | he
    · by_cases h1 : st.usesFramePointer
      · simp [h1] at he
        rcases he with he | he
        · exact Or.inl he
        · exact Or.inr (Or.inl he)
      · by_cases h2 : st.spillAreaSizeBytes ≠ 0 <;> simp [h1, h2] at he
        exact Or.inr (Or.inr (Or.inl ⟨_, he⟩))
    · by_cases h3 : st.gprsToRestore ≠ [] <;> simp [h3] at he
      exact Or.inr (Or.inr (Or.inr ⟨_, he⟩))

/-- Witness for C6 at a concrete frame-pointer-based sandboxed function. -/
theorem c6_witness :
    ∃ pre, addEpilog ⟨true, true, 0, [4, 5]⟩ [.other, .ret] =
        some (pre ++ [.bundleLock, .bicLR (.flexImm 63 2), .retLR,
          .bundleUnlock], true) ∧
      ror32 63 2 = 0xc000000f ∧
      ∀ e ∈ pre, e = .fakeUseSP ∨ e = .movSPfromFP ∨
        (∃ n, e = .addSP n) ∨ ∃ rs, e = .pop rs :=
  c6_sandboxed_return ⟨true, true, 0, [4, 5]⟩ [.other, .ret] rfl (by decide)

/-! ## Helper lemmas: argument lowering -/

theorem except_map_ok {α β : Type} {f : α → β} {e : Except Unit α} {b : β}
    (h : e.map f = .ok b) : ∃ a, e = .ok a ∧ f a = b := by
  cases e with
  | error u => simp [Except.map] at h
  | ok a => exact ⟨a, rfl, by simpa [Except.map] using h⟩

theorem lowerArgsFrom_spec (skip : Bool) (args : List IceTy) :
    ∀ (used : Nat) (asgns : List ArgAssign),
    lowerArgsFrom skip used args = .ok asgns →
    List.Chain' (· < ·) (assignedRegs asgns) ∧
    (∀ r ∈ assignedRegs asgns, used ≤ r ∧ r < ARM32_MAX_GPR_ARG) ∧
    (∀ i lo hi, asgns.get? i = some (.inRegPair lo hi) →
      lo % 2 = 0 ∧ hi = lo + 1) := by
  induction args with
  | nil =>
    intro used asgns h
    rw [lowerArgsFrom] at h
    cases h
    simp [assignedRegs]
  | cons ty rest ih =>
    intro used asgns h
    rw [lowerArgsFrom] at h
    by_cases hv : (isVectorType ty || isFloatingType ty) = true
    · rw [if_pos hv] at h
      by_cases hsk : skip
      · rw [if_neg (by simp [hsk])] at h
        obtain ⟨asgns', h', rfl⟩ := except_map_ok h
        obtain ⟨hc, hb, hp⟩ := ih used asgns' h'
        refine ⟨by simpa [assignedRegs] using hc,
          by simpa [assignedRegs] using hb, fun i lo hi hg => ?_⟩
        cases i with
        | zero => simp at hg
        | succ j => exact hp j lo hi (by simpa using hg)
      · rw [if_pos (by simp [hsk])] at h
        cases h
    · rw [if_neg hv] at h
      by_cases h64 : ty = IceTy.i64
      · rw [if_pos h64] at h
        by_cases hu : used ≥ ARM32_MAX_GPR_ARG
        · rw [if_pos hu] at h
          obtain ⟨asgns', h', rfl⟩ := except_map_ok h
          obtain ⟨hc, hb, hp⟩ := ih used asgns' h'
          refine ⟨by simpa [assignedRegs] using hc,
            by simpa [assignedRegs] using hb, fun i lo hi hg => ?_⟩
          cases i with
          | zero => simp at hg
          | succ j => exact hp j lo hi (by simpa using hg)
        · rw [if_neg hu] at h
          set used1 := if used % 2 ≠ 0 then used + 1 else used with hused1
          have hu1ge : used ≤ used1 := by
            rw [hused1]; split <;> omega
          have hu1even : used1 % 2 = 0 := by
            rw [hused1]; split <;> omega
          by_cases hu2 : used1 + 2 > ARM32_MAX_GPR_ARG
          · rw [if_pos hu2] at h
            obtain ⟨asgns', h', rfl⟩ := except_map_ok h
            obtain ⟨hc, hb, hp⟩ := ih (used1 + 2) asgns' h'
            refine ⟨by simpa [assignedRegs] using hc,
              ?_, fun i lo hi hg => ?_⟩
            · intro r hr
              have := hb r (by simpa [assignedRegs] using hr)
              omega
            · cases i with
              | zero => simp at hg
              | succ j => exact hp j lo hi (by simpa using hg)
          · rw [if_neg hu2] at h
            obtain ⟨asgns', h', rfl⟩ := except_map_ok h
            obtain ⟨hc, hb, hp⟩ := ih (used1 + 2) asgns' h'
            refine ⟨?_, ?_, fun i lo hi hg => ?_⟩
            · rw [show assignedRegs (ArgAssign.inRegPair used1 (used1 + 1)
                  :: asgns') = used1 :: (used1 + 1) :: assignedRegs asgns'
                from rfl]
              rw [List.chain'_cons']
              refine ⟨?_, ?_⟩
              · intro x hx
                simp at hx
                omega
              · rw [List.chain'_cons']
                refine ⟨fun x hx => ?_, hc⟩
                have hxm := List.mem_of_mem_head? hx
                have := (hb x hxm).1
                omega
            · intro r hr
              rw [show assignedRegs (ArgAssign.inRegPair used1 (used1 + 1)
                  :: asgns') = used1 :: (used1 + 1) :: assignedRegs asgns'
                from rfl] at hr
              simp only [List.mem_cons] at hr
              rcases hr with rfl | rfl | hr
              · omega
              · omega
              · have := hb r hr
                omega
            · cases i with
              | zero =>
                simp at hg
                exact ⟨by omega, by omega⟩
              | succ j => exact hp j lo hi (by simpa using hg)
      · rw [if_neg h64] at h
        by_cases hu : used ≥ ARM32_MAX_GPR_ARG
        · rw [if_pos hu] at h
          obtain ⟨asgns', h', rfl⟩ := except_map_ok h
          obtain ⟨hc, hb, hp⟩ := ih used asgns' h'
          refine ⟨by simpa [assignedRegs] using hc,
            by simpa [assignedRegs] using hb, fun i lo hi hg => ?_⟩
          cases i with
          | zero => simp at hg
          | succ j => exact hp j lo hi (by simpa using hg)
        · rw [if_neg hu] at h
          obtain ⟨asgns', h', rfl⟩ := except_map_ok h
          obtain ⟨hc, hb, hp⟩ := ih (used + 1) asgns' h'
          refine ⟨?_, ?_, fun i lo hi hg => ?_⟩
          · rw [show assignedRegs (ArgAssign.inReg used :: asgns') =
              used :: assignedRegs asgns' from rfl]
            rw [List.chain'_cons']
            refine ⟨fun x hx => ?_, hc⟩
            have hxm := List.mem_of_mem_head? hx
            have := (hb x hxm).1
            omega
          · intro r hr
            rw [show assignedRegs (ArgAssign.inReg used :: asgns') =
              used :: assignedRegs asgns' from rfl] at hr
            simp only [List.mem_cons] at hr
            rcases hr with rfl | hr
            · omega
            · have := hb r hr
              omega
          · cases i with
            | zero => simp at hg
            | succ j => exact hp j lo hi (by simpa using hg)

theorem lowerArgsFrom_all_i32 (skip : Bool) (args : List IceTy) :
    ∀ used : Nat, (∀ ty ∈ args, ty = .i32) →
    lowerArgsFrom skip used args =
      .ok ((List.range args.length).map fun i =>
        if used + i < 4 then .inReg (used + i) else .stack) := by
  induction args with
  | nil => intro used _; rw [lowerArgsFrom]; simp
  | cons ty rest ih =>
    intro used hall
    have hty : ty = IceTy.i32 := hall ty (by simp)
    subst hty
    have hrest : ∀ t ∈ rest, t = IceTy.i32 := fun t ht => hall t (by simp [ht])
    rw [lowerArgsFrom]
    rw [if_neg (by decide), if_neg (by decide)]
    by_cases hu : used ≥ ARM32_MAX_GPR_ARG
    · rw [if_pos hu, ih used hrest]
      simp only [Except.map, List.length_cons, List.range_succ_eq_map,
        List.map_cons, List.map_map]
      have h0 : ¬ used + 0 < 4 := by
        simp [ARM32_MAX_GPR_ARG] at hu; omega
      rw [if_neg h0]
      refine congrArg Except.ok (congrArg (ArgAssign.stack :: ·) ?_)
      refine List.map_congr_left fun a _ => ?_
      have hc1 : ¬ used + a < 4 := by
        simp [ARM32_MAX_GPR_ARG] at hu; omega
      have hc2 : ¬ used + (a + 1) < 4 := by
        simp [ARM32_MAX_GPR_ARG] at hu; omega
      simp [Function.comp, hc1, hc2]
    · rw [if_neg hu, ih (used + 1) hrest]
      simp only [Except.map, List.length_cons, List.range_succ_eq_map,
        List.map_cons, List.map_map]
      have h0 : used + 0 < 4 := by
        simp [ARM32_MAX_GPR_ARG] at hu; omega
      rw [if_pos h0]
      refine congrArg Except.ok ?_
      rw [show used + 0 = used from rfl]
      refine congrArg (ArgAssign.inReg used :: ·) ?_
      refine List.map_congr_left fun a _ => ?_
      have he : used + 1 + a = used + (a + 1) := by omega
      simp [Function.comp, he]

/-! ## Claim C5 -/

/-- C5: argument registers are drawn from `r0..r3` in strictly increasing
order; at most four are used; every i64 register pair starts at an even
index with the lo half in the lower-numbered register; an all-i32 argument
list puts the first four arguments in `r0..r3` in order and the rest on
the stack; and a stack-passed i64's lo half is assigned its frame offset
before (and 4 bytes below) the hi half. -/
theorem c5_argument_assignment :
    (∀ (skip : Bool) (args : List IceTy) (asgns : List ArgAssign),
      lowerArguments skip args = .ok asgns →
      List.Chain' (· < ·) (assignedRegs asgns) ∧
      (∀ r ∈ assignedRegs asgns, r < 4) ∧
      (∀ i lo hi, asgns.get? i = some (.inRegPair lo hi) →
        lo % 2 = 0 ∧ hi = lo + 1)) ∧
    (∀ (skip : Bool) (args : List IceTy), (∀ ty ∈ args, ty = .i32) →
      lowerArguments skip args =
        .ok ((List.range args.length).map fun i =>
          if i < 4 then .inReg i else .stack)) ∧
    (∀ base sz, finishArgumentLowering base (.split64 .i32 .i32) sz =
      ([base + sz, base + sz + 4], sz + 8)) := by
  refine ⟨fun skip args asgns h => ?_, fun skip args hall => ?_,
    fun base sz => ?_⟩
  · obtain ⟨hc, hb, hp⟩ := lowerArgsFrom_spec skip args 0 asgns h
    exact ⟨hc, fun r hr => (hb r hr).2, hp⟩
  · have := lowerArgsFrom_all_i32 skip args 0 hall
    simpa [lowerArguments] using this
  · simp [finishArgumentLowering, finishArgScalar, isVectorType,
      typeWidthInBytesOnStack]
    omega

/-- Witness for C5: the list `[i32, i64, i32]` gets `r0`, the pair
`r2:r3` (skipping the odd `r1`), and the stack; a frame-split i64 at
offsets `(12, 16)`. -/
theorem c5_witness :
    (List.Chain' (· < ·) (assignedRegs [.inReg 0, .inRegPair 2 3, .stack]) ∧
      (∀ r ∈ assignedRegs [.inReg 0, .inRegPair 2 3, .stack], r < 4) ∧
      (∀ i lo hi, ([ArgAssign.inReg 0, .inRegPair 2 3,
          .stack].get? i) = some (.inRegPair lo hi) →
        lo % 2 = 0 ∧ hi = lo + 1)) ∧
    finishArgumentLowering 12 (.split64 .i32 .i32) 0 = ([12, 16], 8) :=
  ⟨c5_argument_assignment.1 true [.i32, .i64, .i32]
      [.inReg 0, .inRegPair 2 3, .stack] rfl,
   c5_argument_assignment.2.2 12 0⟩

/-! ## Helper lemmas: 32-bit rotation -/

theorem rot_cancel (x n m : Nat) (_hn : 0 < n) (hm : 0 < m)
    (hx : x < n * m) :
    (x / n + x % n * m) / m + (x / n + x % n * m) % m * n = x := by
  have ha : x / n < m := Nat.div_lt_of_lt_mul hx
  have hdiv : (x / n + x % n * m) / m = x / n / m + x % n :=
    Nat.add_mul_div_right _ _ hm
  have hdd : x / n / m = 0 := Nat.div_eq_of_lt ha
  have hmod : (x / n + x % n * m) % m = x / n % m :=
    Nat.add_mul_mod_self_right _ _ _
  have hmm : x / n % m = x / n := Nat.mod_eq_of_lt ha
  rw [hdiv, hdd, hmod, hmm]
  calc 0 + x % n + x / n * n = n * (x / n) + x % n := by ring
    _ = x := Nat.div_add_mod x n

theorem ror32_lt (x s : Nat) (hs : s ≤ 32) : ror32 x s < 2 ^ 32 := by
  have hn : (0:Nat) < 2 ^ s := pow_pos (by norm_num) _
  have hpow : (2:Nat) ^ s * 2 ^ (32 - s) = 2 ^ 32 := by
    rw [← pow_add]; congr 1; omega
  have hx : x % 2 ^ 32 < 2 ^ s * 2 ^ (32 - s) := by
    rw [hpow]; exact Nat.mod_lt _ (by positivity)
  have ha : x % 2 ^ 32 / 2 ^ s < 2 ^ (32 - s) := Nat.div_lt_of_lt_mul hx
  have hb : x % 2 ^ 32 % 2 ^ s < 2 ^ s := Nat.mod_lt _ hn
  have hmul : x % 2 ^ 32 % 2 ^ s * 2 ^ (32 - s) ≤
      (2 ^ s - 1) * 2 ^ (32 - s) :=
    Nat.mul_le_mul_right _ (by omega)
  have hsub : (2 ^ s - 1) * 2 ^ (32 - s) =
      2 ^ s * 2 ^ (32 - s) - 2 ^ (32 - s) := by
    rw [Nat.sub_mul, one_mul]
  have hle : (2:Nat) ^ (32 - s) ≤ 2 ^ s * 2 ^ (32 - s) :=
    Nat.le_mul_of_pos_left _ hn
  unfold ror32
  omega

theorem ror32_inv (x s : Nat) (hs : s ≤ 32) :
    ror32 (ror32 x s) (32 - s) = x % 2 ^ 32 := by
  have hn : (0:Nat) < 2 ^ s := pow_pos (by norm_num) _
  have hm : (0:Nat) < 2 ^ (32 - s) := pow_pos (by norm_num) _
  have hpow : (2:Nat) ^ s * 2 ^ (32 - s) = 2 ^ 32 := by
    rw [← pow_add]; congr 1; omega
  have hx : x % 2 ^ 32 < 2 ^ s * 2 ^ (32 - s) := by
    rw [hpow]; exact Nat.mod_lt _ (by positivity)
  have hcore := rot_cancel (x % 2 ^ 32) (2 ^ s) (2 ^ (32 - s)) hn hm hx
  have hylt : ror32 x s < 2 ^ 32 := ror32_lt x s hs
  show ror32 x s % 2 ^ 32 / 2 ^ (32 - s) +
    ror32 x s % 2 ^ 32 % 2 ^ (32 - s) * 2 ^ (32 - (32 - s)) = x % 2 ^ 32
  rw [Nat.mod_eq_of_lt hylt, show 32 - (32 - s) = s from by omega]
  exact hcore

theorem ror32_rotl32 (x r : Nat) (hr : r ≤ 32) :
    ror32 (rotl32 x r) r = x % 2 ^ 32 := by
  have h := ror32_inv x (32 - r) (by omega)
  rw [rotl32]
  rwa [show 32 - (32 - r) = r from by omega] at h

theorem rotl32_ror32 (x r : Nat) (hr : r ≤ 32) :
    rotl32 (ror32 x r) r = x % 2 ^ 32 := by
  rw [rotl32]
  exact ror32_inv x r hr

/-! ## Helper lemmas: the rotated-immediate search -/

theorem findRot_some {v i r : Nat} :
    ∀ {l : List Nat}, findRot v l = some (i, r) →
      r ∈ l ∧ i = rotl32 v r ∧ i < 256 := by
  intro l
  induction l with
  | nil => intro h; simp [findRot] at h
  | cons a rest ih =>
    intro h
    rw [findRot] at h
    by_cases hc : rotl32 v a < 256
    · rw [if_pos hc] at h
      simp only [Option.some.injEq, Prod.mk.injEq] at h
      obtain ⟨rfl, rfl⟩ := h
      exact ⟨by simp, rfl, hc⟩
    · rw [if_neg hc] at h
      obtain ⟨hm, he, hl⟩ := ih h
      exact ⟨by simp [hm], he, hl⟩

theorem findRot_none {v : Nat} :
    ∀ {l : List Nat}, findRot v l = none → ∀ r ∈ l, ¬ rotl32 v r < 256 := by
  intro l
  induction l with
  | nil => intro _ r hr; simp at hr
  | cons a rest ih =>
    intro h r hr
    rw [findRot] at h
    by_cases hc : rotl32 v a < 256
    · rw [if_pos hc] at h; cases h
    · rw [if_neg hc] at h
      rcases List.mem_cons.mp hr with rfl | hr'
      · exact hc
      · exact ih h r hr'

theorem canHoldImm_sound {v i r : Nat} (hv : v < 2 ^ 32)
    (h : canHoldImm v = some (i, r)) :
    i < 256 ∧ r % 2 = 0 ∧ r ≤ 30 ∧ ror32 i r = v := by
  obtain ⟨hmem, hieq, hilt⟩ := findRot_some h
  have hr : r % 2 = 0 ∧ r ≤ 30 := by
    simp only [evenRots, List.mem_map, List.mem_range] at hmem
    obtain ⟨k, hk, rfl⟩ := hmem
    omega
  refine ⟨hilt, hr.1, hr.2, ?_⟩
  subst hieq
  rw [ror32_rotl32 v r (by omega), Nat.mod_eq_of_lt hv]

theorem canHoldImm_complete {v i r : Nat} (hi : i < 256) (hr2 : r % 2 = 0)
    (hr : r ≤ 30) (henc : ror32 i r = v) : (canHoldImm v).isSome := by
  have hi32 : i < 2 ^ 32 := by
    calc i < 256 := hi
      _ ≤ 2 ^ 32 := by norm_num
  have hkey : rotl32 v r < 256 := by
    rw [← henc, rotl32_ror32 i r (by omega), Nat.mod_eq_of_lt hi32]
    exact hi
  have hmem : r ∈ evenRots := by
    simp only [evenRots, List.mem_map, List.mem_range]
    exact ⟨r / 2, by omega, by omega⟩
  cases hfr : findRot v evenRots with
  | none => exact absurd hkey (findRot_none hfr r hmem)
  | some p => simp [canHoldImm, hfr]

/-! ## Claim C3 -/

/-- C3: legalizing a 32-bit constant `v` with the Flex form allowed has
exactly one of three outcomes. `canHoldImm` succeeds exactly on the values
representable as a rotated 8-bit immediate; when it succeeds on `v` the
returned operand is a FlexImm that decodes to `v` and nothing is emitted;
otherwise, when it succeeds on the complement of `v`, an MVN of a FlexImm
decoding to the complement is emitted into a fresh register; otherwise a
MOVW of the low 16 bits is emitted, followed by a MOVT of the high 16 bits
exactly when those are nonzero. -/
theorem c3_legalize_const32 (v : Nat) (hv : v < 2 ^ 32) :
    ((canHoldImm v).isSome ↔
      ∃ i r, i < 256 ∧ r % 2 = 0 ∧ r ≤ 30 ∧ ror32 i r = v) ∧
    (∀ i r, canHoldImm v = some (i, r) →
      legalizeConst32 true v = (.flexImm i r, []) ∧ ror32 i r = v) ∧
    (canHoldImm v = none →
      ∀ i r, canHoldImm (2 ^ 32 - 1 - v) = some (i, r) →
        legalizeConst32 true v = (.reg, [.mvn i r]) ∧
        ror32 i r = 2 ^ 32 - 1 - v) ∧
    (canHoldImm v = none → canHoldImm (2 ^ 32 - 1 - v) = none →
      legalizeConst32 true v =
        (.reg, .movw (v % 2 ^ 16) ::
          if v / 2 ^ 16 ≠ 0 then [.movt (v / 2 ^ 16)] else [])) := by
  have hmod : v % 2 ^ 32 = v := Nat.mod_eq_of_lt hv
  refine ⟨⟨fun hs => ?_, fun ⟨i, r, hi, hr2, hr, henc⟩ =>
      canHoldImm_complete hi hr2 hr henc⟩,
    fun i r h => ?_, fun h i r h' => ?_, fun h h' => ?_⟩
  · obtain ⟨⟨i, r⟩, hp⟩ := Option.isSome_iff_exists.mp hs
    obtain ⟨hi, hr2, hr, henc⟩ := canHoldImm_sound hv hp
    exact ⟨i, r, hi, hr2, hr, henc⟩
  · refine ⟨?_, (canHoldImm_sound hv h).2.2.2⟩
    unfold legalizeConst32
    rw [hmod]
    simp only [h]
  · have hc : 2 ^ 32 - 1 - v < 2 ^ 32 := by omega
    refine ⟨?_, (canHoldImm_sound hc h').2.2.2⟩
    unfold legalizeConst32
    rw [hmod]
    simp only [h, h']
  · have hup : v / 2 ^ 16 < 2 ^ 16 := by
      apply Nat.div_lt_of_lt_mul
      calc v < 2 ^ 32 := hv
        _ = 2 ^ 16 * 2 ^ 16 := by norm_num
    unfold legalizeConst32
    rw [hmod]
    simp only [h, h']
    simp only [Nat.mod_eq_of_lt hup]
    by_cases h0 : v / 2 ^ 16 ≠ 0
    · rw [if_pos h0, if_pos h0]
    · rw [if_neg h0, if_neg h0]
      have hlt : v < 2 ^ 16 := by
        rcases Nat.lt_or_ge v (2 ^ 16) with hx | hx
        · exact hx
        · exact absurd (Nat.one_le_div_iff (by norm_num) |>.mpr hx)
            (by omega)
      rw [Nat.mod_eq_of_lt hlt]

/-- Witness for C3 at scenario S6: `#0x12345678` is materialized as
`MOVW #0x5678; MOVT #0x1234`. -/
theorem c3_witness :
    legalizeConst32 true 0x12345678 =
      (.reg, [.movw 0x5678, .movt 0x1234]) := by
  have h := (c3_legalize_const32 0x12345678 (by norm_num)).2.2.2 rfl rfl
  norm_num at h
  exact h

end Subzero
